import Mathlib

set_option autoImplicit false

namespace TubeArchivist

/-!
Shallow embedding of the subtitle pipeline in
`backend/video/src/subtitle.py`: the cue parser (`SubtitleParser.process`,
`_flat_auto_caption`, `_ms_conv`), the chunker (`_chunk_list`), the
download loop (`YoutubeSubtitle.download_subtitles`), the deletion
operation (`YoutubeSubtitle.delete`) and the language selection of
`get_subtitles`.
-/

/-- One entry of an event's `segs` list; the `utf8` key may be absent. -/
structure Seg where
  utf8 : Option String
deriving Repr, DecidableEq

/-- A caption event of the json3 payload: `tStartMs` is always present,
`dDurationMs` and `segs` may be absent. -/
structure Event where
  tStartMs : Nat
  dDurationMs : Option Nat
  segs : Option (List Seg)
deriving Repr, DecidableEq

/-- A normalized cue as appended to `all_cues` by `SubtitleParser.process`
(keys `start`, `end`, `text`, `idx`). -/
structure Cue where
  start : String
  end_ : String
  text : String
  idx : Nat
deriving Repr, DecidableEq

/-- Python exceptions the embedded code can raise. -/
inductive PyErr where
  | typeError
  | indexError
  | keyError
  | nameError
  | fileNotFoundError
deriving Repr, DecidableEq

/-- Caption source: user subtitles or automatic captions. -/
inductive Source where
  | user
  | auto
deriving Repr, DecidableEq

/-- Python `str.strip()`: remove leading and trailing whitespace. -/
def pyStrip (s : String) : String :=
  String.mk (((s.data.dropWhile Char.isWhitespace).reverse.dropWhile Char.isWhitespace).reverse)

/-- Python `str.zfill` on a non-negative number: left-pad with zeros. -/
def zfill (width : Nat) (s : String) : String :=
  String.mk (List.replicate (width - s.length) '0') ++ s

/-- Embedding of `SubtitleParser._ms_conv`: convert a millisecond offset to
an `HH:MM:SS.mmm` timestamp string. -/
def msConv (ms : Nat) : String :=
  let hours := zfill 2 (toString ((ms / (1000 * 60 * 60)) % 24))
  let minutes := zfill 2 (toString ((ms / (1000 * 60)) % 60))
  let secs := zfill 2 (toString ((ms / 1000) % 60))
  let millis := zfill 3 (toString (ms % 1000))
  hours ++ ":" ++ minutes ++ ":" ++ secs ++ "." ++ millis

/-- The spec's formula for `millisToTimestamp` (spec section 4.1), stated
separately from the source's `msConv` so the two can be compared. -/
def millisToTimestampSpec (ms : Nat) : String :=
  zfill 2 (toString ((ms / 3600000) % 24)) ++ ":" ++
    zfill 2 (toString ((ms / 60000) % 60)) ++ ":" ++
    zfill 2 (toString ((ms / 1000) % 60)) ++ "." ++
    zfill 3 (toString (ms % 1000))

/-- Embedding of the Python expression
`"".join([i.get("utf8") for i in segs])`: joining raises `TypeError` when a
seg has no `utf8` key (joining `None` into a string). -/
def joinSegs : List Seg → Except PyErr String
  | [] => .ok ""
  | s :: rest =>
    match s.utf8 with
    | none => .error .typeError
    | some t => do
      let r ← joinSegs rest
      .ok (t ++ r)

/-- One iteration of the loop in `SubtitleParser._flat_auto_caption`:
`flatten` is the list built so far, `event` the incoming event. The
source mutates `flatten[-1]` in place on overlap; here the last element
is replaced. -/
def flatAutoStep (flatten : List Event) (event : Event) : Except PyErr (List Event) :=
  match event.segs with
  | none => .ok flatten
  | some segs => do
    let text ← joinSegs segs
    if pyStrip text = "" then .ok flatten
    else
      match flatten.getLast? with
      | none => .ok (flatten ++ [{ event with segs := some [⟨some text⟩] }])
      | some last =>
        if last.dDurationMs.isNone || last.segs.isNone then .ok flatten
        else
          let lastEnd := last.tStartMs + last.dDurationMs.getD 0
          if event.tStartMs < lastEnd then
            match last.segs with
            | some (s0 :: srest) =>
              match s0.utf8 with
              | some u0 =>
                .ok (flatten.dropLast ++
                  [{ last with segs := some (⟨some (u0 ++ "\n" ++ text)⟩ :: srest) }])
              | none => .error .keyError
            | some [] => .error .indexError
            | none => .error .keyError
          else .ok (flatten ++ [{ event with segs := some [⟨some text⟩] }])

/-- Embedding of `SubtitleParser._flat_auto_caption`. -/
def flatAutoCaption (events : List Event) : Except PyErr (List Event) :=
  events.foldlM flatAutoStep []

/-- The cue-building loop of `SubtitleParser.process`; `idx` is the
`enumerate` counter over the (flattened or raw) event list. -/
def buildCues (idx : Nat) : List Event → Except PyErr (List Cue)
  | [] => .ok []
  | e :: rest =>
    if e.dDurationMs.isNone || e.segs.isNone then buildCues (idx + 1) rest
    else do
      let text ← joinSegs (e.segs.getD [])
      let cues ← buildCues (idx + 1) rest
      .ok ({ start := msConv e.tStartMs,
             end_ := msConv (e.tStartMs + e.dDurationMs.getD 0),
             text := text,
             idx := idx + 1 } :: cues)

/-- Embedding of `SubtitleParser.process`: returns the cue list, or the
Python exception the parser would raise. An empty event list (or a missing
`events` key) yields an empty cue list. -/
def process (events : List Event) (source : Source) : Except PyErr (List Cue) :=
  if events.isEmpty then .ok []
  else
    match (if source = Source.auto then flatAutoCaption events else .ok events) with
    | .error e => .error e
    | .ok evs => buildCues 0 evs

/-- A chunk document as built by `SubtitleParser._chunk_list`;
`subtitle_end` is `none` while the chunk is still open (the key is only
set when the chunk is closed). -/
structure Chunk where
  subtitle_index : Nat
  subtitle_line : String
  subtitle_start : String
  subtitle_end : Option String
  subtitle_fragment_id : String
deriving Repr, DecidableEq

/-- The loop of `SubtitleParser._chunk_list`: `acc` is the `chunk_list`
built so far, `chunk` the currently open chunk (`{}` in the source is
`none` here). -/
def chunkLoop (youtubeId lang : String) (acc : List Chunk) (chunk : Option Chunk) :
    List Cue → List Chunk
  | [] => acc
  | cue :: rest =>
    let opened : Chunk :=
      match chunk with
      | some c => { c with subtitle_line := c.subtitle_line ++ " " ++ cue.text ++ "\n" }
      | none =>
        { subtitle_index := acc.length + 1
          subtitle_line := cue.text
          subtitle_start := cue.start
          subtitle_end := none
          subtitle_fragment_id := "" }
    let tagged : Chunk :=
      { opened with subtitle_fragment_id :=
          youtubeId ++ "-" ++ lang ++ "-" ++ toString opened.subtitle_index }
    if cue.idx % 5 = 0 then
      chunkLoop youtubeId lang (acc ++ [{ tagged with subtitle_end := some cue.end_ }]) none rest
    else
      chunkLoop youtubeId lang acc (some tagged) rest

/-- Embedding of `SubtitleParser._chunk_list`. -/
def chunkList (youtubeId lang : String) (cues : List Cue) : List Chunk :=
  chunkLoop youtubeId lang [] none cues

/-- A candidate subtitle track, as assembled by `_get_all_subtitles`. -/
structure Track where
  lang : String
  source : Source
  url : String
  mediaUrl : String
deriving Repr, DecidableEq

/-- A downloaded HTTP response, with `ok` and `text` as in `requests`;
`events` is the decoded `events` list of the JSON body (the model carries
the decoded form alongside the raw text). -/
structure DlResponse where
  ok : Bool
  text : String
  events : List Event
deriving Repr, DecidableEq

/-- The loop of `YoutubeSubtitle.download_subtitles`. `subtitleKey` models
the Python local variable `subtitle_key`, which is assigned only inside the
failed-download branch; reading it while still unassigned raises
`NameError` (`UnboundLocalError`). File writing and index submission are
external side effects and do not affect the returned list. -/
def downloadLoop (youtubeId : String) (subtitleKey : Option String) :
    List (Track × DlResponse) → Except PyErr (List Track)
  | [] => .ok []
  | (sub, resp) :: rest =>
    if resp.ok = false then
      downloadLoop youtubeId (some (youtubeId ++ "-" ++ sub.lang)) rest
    else if resp.text = "" then
      match subtitleKey with
      | none => .error .nameError
      | some _ => downloadLoop youtubeId subtitleKey rest
    else do
      let cues ← process resp.events sub.source
      if cues.isEmpty then downloadLoop youtubeId subtitleKey rest
      else do
        let restIndexed ← downloadLoop youtubeId subtitleKey rest
        .ok (sub :: restIndexed)

/-- Embedding of `YoutubeSubtitle.download_subtitles`: each track is paired
with the response its download produces; returns the `indexed` list, or the
exception the loop raises. -/
def downloadSubtitles (youtubeId : String) (subs : List (Track × DlResponse)) :
    Except PyErr (List Track) :=
  downloadLoop youtubeId none subs

/-- Python `os.remove`: raises `FileNotFoundError` when the path is absent. -/
def osRemove (fs : List String) (p : String) : Except PyErr (List String) :=
  if p ∈ fs then .ok (fs.erase p) else .error .fileNotFoundError

/-- The file-removal loop of `YoutubeSubtitle.delete`: `FileNotFoundError`
from `os.remove` is caught and only logged. -/
def removeFiles (fs : List String) : List String → List String
  | [] => fs
  | p :: ps =>
    match osRemove fs p with
    | .ok fs2 => removeFiles fs2 ps
    | .error _ => removeFiles fs ps

/-- The Elasticsearch `_delete_by_query` request issued by `delete`: a term
query on `youtube_id` with `refresh=true`. -/
structure DeleteQuery where
  path : String
  term_field : String
  term_value : String
deriving Repr, DecidableEq

/-- Embedding of `YoutubeSubtitle.delete`, over a filesystem modelled as
the list of present paths. `subtitlesArg` models the `subtitles` parameter
(the default `False` and an empty list are both `[]` here), `jsonSubtitles`
the video's recorded `json_data["subtitles"]` (absent key and empty list
are both `[]`). Returns the new filesystem and the index delete query
issued, if any (the early return issues none). -/
def deleteSubtitles (youtubeId mediaBase : String) (subtitlesArg jsonSubtitles : List Track)
    (fs : List String) : List String × Option DeleteQuery :=
  let files : Option (List String) :=
    if subtitlesArg ≠ [] then some (subtitlesArg.map Track.mediaUrl)
    else if jsonSubtitles = [] then none
    else some (jsonSubtitles.map Track.mediaUrl)
  match files with
  | none => (fs, none)
  | some fl =>
    (removeFiles fs (fl.map (fun p => mediaBase ++ "/" ++ p)),
     some ⟨"ta_subtitle/_delete_by_query?refresh=true", "youtube_id", youtubeId⟩)

/-- Modelled from the spec: one entry of the requested-language policy
(section 9's tagged variant), standing in for `yt_dlp.utils.`
`orderedSet_from_options`, which is an external dependency not under
`src/`. An entry is the token `"all"`, a literal code, a valid regular
expression (abstracted to its match predicate over language codes), or a
malformed regular expression identified by its pattern text. -/
inductive LangPattern where
  | wildcard
  | literal (code : String)
  | pattern (accepts : String → Bool)
  | invalid (source_text : String)

/-- Modelled from the spec: expansion of one requested entry against the
available language codes (section 4.2 step 2): `"all"` expands to every
available language in enumeration order, a literal is kept verbatim, a
regex keeps every matching available code in enumeration order. -/
def expandOne (avail : List String) : LangPattern → List String
  | .wildcard => avail
  | .literal c => [c]
  | .pattern m => avail.filter m
  | .invalid _ => []

/-- Modelled from the spec: the expansion loop over all requested entries;
a malformed regular expression aborts the whole selection with the
offending pattern (section 4.2 step 4). -/
def expandRequested (avail : List String) : List LangPattern → Except String (List String)
  | [] => .ok []
  | .invalid s :: _ => .error s
  | p :: ps => do
    let rest ← expandRequested avail ps
    .ok (expandOne avail p ++ rest)

/-- Modelled from the spec: de-duplication preserving first-occurrence
order (section 4.2 step 2); `seen` is the set of codes already kept. -/
def dedupFirst (seen : List String) : List String → List String
  | [] => []
  | x :: xs => if x ∈ seen then dedupFirst seen xs else x :: dedupFirst (x :: seen) xs

/-- Dictionary lookup of a language in the available map, modelled as an
association list in enumeration order. -/
def lookupLang (l : String) : List (String × Track) → Option Track
  | [] => none
  | (k, t) :: rest => if k = l then some t else lookupLang l rest

/-- Modelled from the spec: the language selection of
`YoutubeSubtitle.get_subtitles` (sections 4.2 steps 2 to 4): expand the
requested entries, de-duplicate preserving first occurrence, and map the
codes to their tracks, silently skipping unavailable codes. -/
def getSubtitles (avail : List (String × Track)) (req : List LangPattern) :
    Except String (List Track) := do
  let ex ← expandRequested (avail.map Prod.fst) req
  .ok ((dedupFirst [] ex).filterMap (fun l => lookupLang l avail))

/-! Helper lemmas. -/

theorem except_bind_ok {α β γ : Type} (a : α) (f : α → Except γ β) :
    (Except.ok a >>= f) = f a := rfl

theorem except_bind_error {α β γ : Type} (e : γ) (f : α → Except γ β) :
    ((Except.error e : Except γ α) >>= f) = Except.error e := rfl

/-- The chunk built from the current cue in one `chunkLoop` step: either
the open chunk extended by the cue's text, or a freshly opened chunk, with
the fragment id stamped from the open chunk's index. -/
def tagOf (y l : String) (acc : List Chunk) (cur : Option Chunk) (c : Cue) : Chunk :=
  let opened : Chunk :=
    match cur with
    | some c0 => { c0 with subtitle_line := c0.subtitle_line ++ " " ++ c.text ++ "\n" }
    | none =>
      { subtitle_index := acc.length + 1
        subtitle_line := c.text
        subtitle_start := c.start
        subtitle_end := none
        subtitle_fragment_id := "" }
  { opened with subtitle_fragment_id :=
      y ++ "-" ++ l ++ "-" ++ toString opened.subtitle_index }

/-- One step of `chunkLoop` on a nonempty cue list: the chunk is closed and
emitted exactly when the cue's index is a multiple of 5. -/
theorem chunkLoop_cons (y l : String) (acc : List Chunk) (cur : Option Chunk)
    (c : Cue) (rest : List Cue) :
    chunkLoop y l acc cur (c :: rest) =
      if c.idx % 5 = 0 then
        chunkLoop y l (acc ++ [{ tagOf y l acc cur c with subtitle_end := some c.end_ }]) none rest
      else chunkLoop y l acc (some (tagOf y l acc cur c)) rest := by
  cases cur <;> rfl

/-- Counting lemma for `chunkLoop`: over cues whose indices continue the
run `k+1, k+2, ...`, the number of emitted chunks advances like `n / 5`. -/
theorem chunkLoop_length (y l : String) :
    ∀ (cues : List Cue) (k : Nat) (acc : List Chunk) (cur : Option Chunk),
      cues.map Cue.idx = List.range' (k + 1) cues.length →
      (chunkLoop y l acc cur cues).length + k / 5 = acc.length + (k + cues.length) / 5 := by
  intro cues
  induction cues with
  | nil => intro k acc cur _; simp [chunkLoop]
  | cons c rest ih =>
    intro k acc cur h
    rw [List.length_cons, List.range'_succ, List.map_cons] at h
    obtain ⟨hidx, hrest⟩ := List.cons_eq_cons.mp h
    rw [chunkLoop_cons, hidx, List.length_cons]
    have ih1 := ih (k + 1)
      (acc ++ [{ tagOf y l acc cur c with subtitle_end := some c.end_ }]) none hrest
    have ih2 := ih (k + 1) acc (some (tagOf y l acc cur c)) hrest
    rw [List.length_append, List.length_singleton] at ih1
    by_cases h5 : (k + 1) % 5 = 0
    · rw [if_pos h5]; omega
    · rw [if_neg h5]; omega

/-! Claim theorems. -/

/-- Twelve cues with contiguous indices 1..12 and distinct content. -/
def twelveCues : List Cue :=
  [⟨"s1", "e1", "t1", 1⟩, ⟨"s2", "e2", "t2", 2⟩, ⟨"s3", "e3", "t3", 3⟩,
   ⟨"s4", "e4", "t4", 4⟩, ⟨"s5", "e5", "t5", 5⟩, ⟨"s6", "e6", "t6", 6⟩,
   ⟨"s7", "e7", "t7", 7⟩, ⟨"s8", "e8", "t8", 8⟩, ⟨"s9", "e9", "t9", 9⟩,
   ⟨"s10", "e10", "t10", 10⟩, ⟨"s11", "e11", "t11", 11⟩, ⟨"s12", "e12", "t12", 12⟩]

/-- C1: for a cue list whose sequence indices are the contiguous run
`1..N`, `_chunk_list` emits one document per 5 consecutive cues (`N / 5`
documents, a chunk being closed and emitted exactly at each cue whose
index is a multiple of 5), dropping a trailing group of fewer than 5 cues;
in particular 12 cues yield exactly the 2 documents built from cues 1-5
and 6-10, with cues 11-12 dropped. -/
theorem chunkList_groups_of_five :
    (∀ (y l : String) (cues : List Cue),
        cues.map Cue.idx = List.range' 1 cues.length →
        (chunkList y l cues).length = cues.length / 5) ∧
    chunkList "v" "en" twelveCues =
      [⟨1, "t1 t2\n t3\n t4\n t5\n", "s1", some "e5", "v-en-1"⟩,
       ⟨2, "t6 t7\n t8\n t9\n t10\n", "s6", some "e10", "v-en-2"⟩] := by
  constructor
  · intro y l cues h
    have h0 := chunkLoop_length y l cues 0 [] none (by simpa using h)
    simpa [chunkList] using h0
  · rfl

theorem chunkList_groups_of_five_witness :
    (chunkList "v" "en" twelveCues).length = twelveCues.length / 5 :=
  chunkList_groups_of_five.1 "v" "en" twelveCues (by decide)

/-- C6: for every non-negative `ms`, `_ms_conv` produces the string of the
spec's formula (hours mod 24, minutes mod 60, seconds mod 60, millis mod
1000, zero-padded to 2/2/2/3 digits), and the two concrete examples hold. -/
theorem msConv_matches_spec :
    (∀ ms : Nat, msConv ms = millisToTimestampSpec ms) ∧
    msConv 3661001 = "01:01:01.001" ∧ msConv 0 = "00:00:00.000" :=
  ⟨fun _ => rfl, by decide, by decide⟩

/-- C10: an event with a start, a duration and a present non-empty `segs`
list in which one segment lacks `utf8` makes processing raise (the
`TypeError` of joining `None` into a string) on both the user and the auto
path, instead of dropping the event or emitting a cue. -/
theorem process_missing_utf8_raises :
    process [⟨0, some 1000, some [⟨some "a"⟩, ⟨none⟩]⟩] Source.user =
      Except.error PyErr.typeError ∧
    process [⟨0, some 1000, some [⟨some "a"⟩, ⟨none⟩]⟩] Source.auto =
      Except.error PyErr.typeError :=
  ⟨by rfl, by rfl⟩

/-- C3 (code bug): an ok response with an empty body is meant to be
skipped, but the skip branch's log line reads the local `subtitle_key`,
which is assigned only inside the failed-download branch; with no earlier
failed track, the first empty-body track raises `NameError`
(`UnboundLocalError`) instead of being skipped. Once an earlier failed
track has assigned `subtitle_key`, the empty-body skip works. -/
theorem download_empty_body_name_error :
    downloadSubtitles "vid" [(⟨"en", Source.user, "u", "m"⟩, ⟨true, "", []⟩)] =
      Except.error PyErr.nameError ∧
    downloadSubtitles "vid"
      [(⟨"en", Source.user, "u", "m"⟩, ⟨false, "x", []⟩),
       (⟨"en", Source.user, "u", "m"⟩, ⟨true, "", []⟩)] = Except.ok [] :=
  ⟨by rfl, by rfl⟩

/-- C2: in the auto-caption overlap-merge pass, a retained incoming event
that starts strictly before the end (`startMs + durationMs`) of the last
retained event is merged: its text is appended to the last event's text
joined with a newline, no new event is emitted, and the last event's
timing is unchanged; the concrete two-event example produces one retained
event with text `"a\nb"` and the first event's timing. -/
theorem flatAuto_overlap_merge :
    (∀ (acc : List Event) (last event : Event) (d : Nat) (u t : String),
        last.dDurationMs = some d →
        last.segs = some [⟨some u⟩] →
        event.segs.isSome →
        joinSegs (event.segs.getD []) = Except.ok t →
        pyStrip t ≠ "" →
        event.tStartMs < last.tStartMs + d →
        flatAutoStep (acc ++ [last]) event =
          Except.ok (acc ++ [{ last with segs := some [⟨some (u ++ "\n" ++ t)⟩] }])) ∧
    flatAutoCaption [⟨0, some 1000, some [⟨some "a"⟩]⟩, ⟨500, some 1000, some [⟨some "b"⟩]⟩] =
      Except.ok [⟨0, some 1000, some [⟨some "a\nb"⟩]⟩] := by
  constructor
  · intro acc last event d u t hdur hsegs hsome hjoin hstrip hlt
    obtain ⟨segs, hseg⟩ := Option.isSome_iff_exists.mp hsome
    rw [hseg] at hjoin
    simp only [Option.getD_some] at hjoin
    simp only [flatAutoStep, hseg, hjoin, except_bind_ok, List.getLast?_concat,
      hdur, hsegs, Option.isNone_some, Bool.or_self, Bool.false_eq_true, if_false,
      Option.getD_some, if_neg hstrip, if_pos hlt, List.dropLast_concat]
  · rfl

theorem flatAuto_overlap_merge_witness :
    flatAutoStep ([] ++ [(⟨0, some 1000, some [⟨some "a"⟩]⟩ : Event)])
        ⟨500, some 1000, some [⟨some "b"⟩]⟩ =
      Except.ok ([] ++ [{ (⟨0, some 1000, some [⟨some "a"⟩]⟩ : Event) with
        segs := some [⟨some ("a" ++ "\n" ++ "b")⟩] }]) :=
  flatAuto_overlap_merge.1 [] ⟨0, some 1000, some [⟨some "a"⟩]⟩
    ⟨500, some 1000, some [⟨some "b"⟩]⟩ 1000 "a" "b" rfl rfl (by rfl) (by rfl)
    (by decide) (by decide)

/-- Every cue produced by `buildCues` starting at counter `n` has an index
strictly greater than `n`. -/
theorem buildCues_idx_gt :
    ∀ (evs : List Event) (n : Nat) (cues : List Cue),
      buildCues n evs = Except.ok cues → ∀ c ∈ cues, n < c.idx := by
  intro evs
  induction evs with
  | nil =>
    intro n cues h c hc
    simp only [buildCues, Except.ok.injEq] at h
    subst h
    simp at hc
  | cons e rest ih =>
    intro n cues h c hc
    by_cases hf : e.dDurationMs.isNone || e.segs.isNone
    · rw [buildCues, if_pos hf] at h
      exact Nat.lt_of_succ_lt (ih (n + 1) cues h c hc)
    · rw [buildCues, if_neg hf] at h
      cases hj : joinSegs (e.segs.getD []) with
      | error err => rw [hj, except_bind_error] at h; cases h
      | ok t =>
        rw [hj, except_bind_ok] at h
        cases hb : buildCues (n + 1) rest with
        | error err => rw [hb, except_bind_error] at h; cases h
        | ok cs =>
          rw [hb, except_bind_ok, Except.ok.injEq] at h
          subst h
          rcases List.mem_cons.mp hc with hc1 | hc2
          · subst hc1; exact Nat.lt_succ_self n
          · exact Nat.lt_of_succ_lt (ih (n + 1) cs hb c hc2)

/-- The cue indices produced by `buildCues` are strictly increasing along
the produced list. -/
theorem buildCues_sorted :
    ∀ (evs : List Event) (n : Nat) (cues : List Cue),
      buildCues n evs = Except.ok cues →
      cues.Pairwise (fun a b => a.idx < b.idx) := by
  intro evs
  induction evs with
  | nil =>
    intro n cues h
    simp only [buildCues, Except.ok.injEq] at h
    subst h
    exact List.Pairwise.nil
  | cons e rest ih =>
    intro n cues h
    by_cases hf : e.dDurationMs.isNone || e.segs.isNone
    · rw [buildCues, if_pos hf] at h
      exact ih (n + 1) cues h
    · rw [buildCues, if_neg hf] at h
      cases hj : joinSegs (e.segs.getD []) with
      | error err => rw [hj, except_bind_error] at h; cases h
      | ok t =>
        rw [hj, except_bind_ok] at h
        cases hb : buildCues (n + 1) rest with
        | error err => rw [hb, except_bind_error] at h; cases h
        | ok cs =>
          rw [hb, except_bind_ok, Except.ok.injEq] at h
          subst h
          exact List.Pairwise.cons (fun b hb2 => buildCues_idx_gt rest (n + 1) cs hb b hb2)
            (ih (n + 1) cs hb)

/-- Every cue produced by `buildCues` comes from an event at a definite
position that has both the duration key and the segs key, with the cue
index determined by that position. -/
theorem buildCues_mem :
    ∀ (evs : List Event) (n : Nat) (cues : List Cue),
      buildCues n evs = Except.ok cues →
      ∀ c ∈ cues, ∃ j, ∃ hj : j < evs.length,
        c.idx = n + j + 1 ∧ (evs.get ⟨j, hj⟩).dDurationMs ≠ none ∧
          (evs.get ⟨j, hj⟩).segs ≠ none := by
  intro evs
  induction evs with
  | nil =>
    intro n cues h c hc
    simp only [buildCues, Except.ok.injEq] at h
    subst h
    simp at hc
  | cons e rest ih =>
    intro n cues h c hc
    by_cases hf : e.dDurationMs.isNone || e.segs.isNone
    · rw [buildCues, if_pos hf] at h
      obtain ⟨j, hj, hji, hd, hs⟩ := ih (n + 1) cues h c hc
      exact ⟨j + 1, by simpa using Nat.succ_lt_succ hj, by omega, hd, hs⟩
    · rw [buildCues, if_neg hf] at h
      rw [Bool.or_eq_true, not_or] at hf
      obtain ⟨hfd, hfs⟩ := hf
      cases hj : joinSegs (e.segs.getD []) with
      | error err => rw [hj, except_bind_error] at h; cases h
      | ok t =>
        rw [hj, except_bind_ok] at h
        cases hb : buildCues (n + 1) rest with
        | error err => rw [hb, except_bind_error] at h; cases h
        | ok cs =>
          rw [hb, except_bind_ok, Except.ok.injEq] at h
          subst h
          rcases List.mem_cons.mp hc with hc1 | hc2
          · subst hc1
            refine ⟨0, by simp, by simp, ?_, ?_⟩
            · simpa [Option.isNone_iff_eq_none] using hfd
            · simpa [Option.isNone_iff_eq_none] using hfs
          · obtain ⟨j, hjlt, hji, hd, hs⟩ := ih (n + 1) cs hb c hc2
            exact ⟨j + 1, by simpa using Nat.succ_lt_succ hjlt, by omega, hd, hs⟩

/-- C4 (corrected, counterexample): with a fieldless event between two
valid ones, the parser yields the indices `[1, 3]`: the `enumerate`
counter keeps counting dropped events, so the cue indices are not the
contiguous run `1, 2`. -/
theorem process_idx_not_contiguous :
    process [⟨0, some 1000, some [⟨some "a"⟩]⟩, ⟨1500, none, none⟩,
             ⟨2000, some 1000, some [⟨some "c"⟩]⟩] Source.user =
      Except.ok [⟨"00:00:00.000", "00:00:01.000", "a", 1⟩,
                 ⟨"00:00:02.000", "00:00:03.000", "c", 3⟩] ∧
    [1, 3] ≠ List.range' 1 2 :=
  ⟨by rfl, by decide⟩

/-- C4 (amended): the `sequenceIndex` values of every produced cue list are
strictly increasing; they are not in general contiguous, because the
`enumerate` counter keeps counting dropped events (see
`process_idx_not_contiguous`). -/
theorem process_idx_strict_mono :
    ∀ (events : List Event) (source : Source) (cues : List Cue),
      process events source = Except.ok cues →
      (cues.map Cue.idx).Pairwise (fun a b => a < b) := by
  intro events source cues h
  unfold process at h
  by_cases he : events.isEmpty
  · rw [if_pos he, Except.ok.injEq] at h
    subst h
    exact List.Pairwise.nil
  · rw [if_neg he] at h
    cases hfl : (if source = Source.auto then flatAutoCaption events else Except.ok events) with
    | error err => rw [hfl] at h; cases h
    | ok evs =>
      rw [hfl] at h
      exact List.Pairwise.map Cue.idx (fun a b hab => hab) (buildCues_sorted evs 0 cues h)

theorem process_idx_strict_mono_witness :
    (([⟨"00:00:00.000", "00:00:01.000", "a", 1⟩,
       ⟨"00:00:02.000", "00:00:03.000", "c", 3⟩] : List Cue).map Cue.idx).Pairwise
      (fun a b => a < b) :=
  process_idx_strict_mono
    [⟨0, some 1000, some [⟨some "a"⟩]⟩, ⟨1500, none, none⟩,
     ⟨2000, some 1000, some [⟨some "c"⟩]⟩] Source.user _ (by rfl)

/-- C7 (corrected, counterexample): an event with a present but empty
`segs` list is not dropped: the source only checks key presence, so the
event yields a cue with empty text rather than no cue. -/
theorem process_empty_segs_not_dropped :
    process [⟨0, some 1000, some []⟩] Source.user =
      Except.ok [⟨"00:00:00.000", "00:00:01.000", "", 1⟩] ∧
    Except.ok [(⟨"00:00:00.000", "00:00:01.000", "", 1⟩ : Cue)] ≠
      (Except.ok [] : Except PyErr (List Cue)) :=
  ⟨by rfl, by simp⟩

/-- C7 (amended): an event lacking the `dDurationMs` key or the `segs` key
is dropped and contributes no cue (an event with a present but empty
`segs` list is kept instead; see `process_empty_segs_not_dropped`), and an
all-empty event list yields an empty cue list. -/
theorem process_drops_fieldless :
    (∀ source, process [] source = Except.ok []) ∧
    (∀ (evs : List Event) (cues : List Cue) (i : Nat) (hi : i < evs.length),
        buildCues 0 evs = Except.ok cues →
        ((evs.get ⟨i, hi⟩).dDurationMs = none ∨ (evs.get ⟨i, hi⟩).segs = none) →
        ∀ c ∈ cues, c.idx ≠ i + 1) := by
  constructor
  · intro source; rfl
  · intro evs cues i hi h hbad c hc hidx
    obtain ⟨j, hj, hji, hd, hs⟩ := buildCues_mem evs 0 cues h c hc
    have hij : j = i := by omega
    subst hij
    rcases hbad with hb | hb
    · exact hd hb
    · exact hs hb

theorem process_drops_fieldless_witness :
    (⟨"00:00:00.000", "00:00:01.000", "x", 2⟩ : Cue).idx ≠ 0 + 1 :=
  process_drops_fieldless.2 [⟨0, none, none⟩, ⟨0, some 1000, some [⟨some "x"⟩]⟩]
    [⟨"00:00:00.000", "00:00:01.000", "x", 2⟩] 0 (by decide) (by rfl) (by decide)
    ⟨"00:00:00.000", "00:00:01.000", "x", 2⟩ (by decide)

/-- Unfolding one non-malformed entry of the expansion loop. -/
theorem expandRequested_cons_ok (avail : List String) (p : LangPattern)
    (ps : List LangPattern) (hp : ∀ s, p ≠ LangPattern.invalid s) :
    expandRequested avail (p :: ps) =
      (expandRequested avail ps) >>= fun rest => Except.ok (expandOne avail p ++ rest) := by
  cases p with
  | invalid s => exact absurd rfl (hp s)
  | wildcard => rfl
  | literal c => rfl
  | pattern m => rfl

/-- A non-malformed head entry neither masks nor causes an expansion
error. -/
theorem expandRequested_cons_error (avail : List String) (p : LangPattern)
    (ps : List LangPattern) (hp : ∀ s, p ≠ LangPattern.invalid s) (s : String) :
    expandRequested avail (p :: ps) = Except.error s ↔
      expandRequested avail ps = Except.error s := by
  rw [expandRequested_cons_ok avail p ps hp]
  cases hr : expandRequested avail ps with
  | error e => rw [except_bind_error]
  | ok ex => rw [except_bind_ok]; simp

/-- The expansion loop fails exactly on a malformed entry, and the error
carries a malformed entry's pattern text. -/
theorem expandRequested_error_char :
    ∀ (req : List LangPattern) (avail : List String),
      ((∃ s, expandRequested avail req = Except.error s) ↔
        ∃ s, LangPattern.invalid s ∈ req) ∧
      (∀ s, expandRequested avail req = Except.error s → LangPattern.invalid s ∈ req) := by
  intro req
  induction req with
  | nil =>
    intro avail
    constructor
    · constructor
      · rintro ⟨s, hs⟩; simp [expandRequested] at hs
      · rintro ⟨s, hs⟩; simp at hs
    · intro s hs; simp [expandRequested] at hs
  | cons p ps ih =>
    intro avail
    obtain ⟨ih1, ih2⟩ := ih avail
    cases p with
    | invalid s0 =>
      constructor
      · constructor
        · intro _; exact ⟨s0, List.mem_cons_self _ _⟩
        · intro _; exact ⟨s0, rfl⟩
      · intro s hs
        have : s0 = s := by
          rw [show expandRequested avail (LangPattern.invalid s0 :: ps) = Except.error s0
            from rfl, Except.error.injEq] at hs
          exact hs
        subst this
        exact List.mem_cons_self _ _
    | wildcard =>
      have hp : ∀ s, LangPattern.wildcard ≠ LangPattern.invalid s := fun s h => by cases h
      constructor
      · constructor
        · rintro ⟨s, hs⟩
          obtain ⟨s2, hs2⟩ := ih1.mp ⟨s, (expandRequested_cons_error avail _ ps hp s).mp hs⟩
          exact ⟨s2, List.mem_cons_of_mem _ hs2⟩
        · rintro ⟨s, hs⟩
          rcases List.mem_cons.mp hs with h1 | h2
          · cases h1
          · obtain ⟨s3, hs3⟩ := ih1.mpr ⟨s, h2⟩
            exact ⟨s3, (expandRequested_cons_error avail _ ps hp s3).mpr hs3⟩
      · intro s hs
        exact List.mem_cons_of_mem _ (ih2 s ((expandRequested_cons_error avail _ ps hp s).mp hs))
    | literal c =>
      have hp : ∀ s, LangPattern.literal c ≠ LangPattern.invalid s := fun s h => by cases h
      constructor
      · constructor
        · rintro ⟨s, hs⟩
          obtain ⟨s2, hs2⟩ := ih1.mp ⟨s, (expandRequested_cons_error avail _ ps hp s).mp hs⟩
          exact ⟨s2, List.mem_cons_of_mem _ hs2⟩
        · rintro ⟨s, hs⟩
          rcases List.mem_cons.mp hs with h1 | h2
          · cases h1
          · obtain ⟨s3, hs3⟩ := ih1.mpr ⟨s, h2⟩
            exact ⟨s3, (expandRequested_cons_error avail _ ps hp s3).mpr hs3⟩
      · intro s hs
        exact List.mem_cons_of_mem _ (ih2 s ((expandRequested_cons_error avail _ ps hp s).mp hs))
    | pattern m =>
      have hp : ∀ s, LangPattern.pattern m ≠ LangPattern.invalid s := fun s h => by cases h
      constructor
      · constructor
        · rintro ⟨s, hs⟩
          obtain ⟨s2, hs2⟩ := ih1.mp ⟨s, (expandRequested_cons_error avail _ ps hp s).mp hs⟩
          exact ⟨s2, List.mem_cons_of_mem _ hs2⟩
        · rintro ⟨s, hs⟩
          rcases List.mem_cons.mp hs with h1 | h2
          · cases h1
          · obtain ⟨s3, hs3⟩ := ih1.mpr ⟨s, h2⟩
            exact ⟨s3, (expandRequested_cons_error avail _ ps hp s3).mpr hs3⟩
      · intro s hs
        exact List.mem_cons_of_mem _ (ih2 s ((expandRequested_cons_error avail _ ps hp s).mp hs))

/-- Selection fails with a given error exactly when the expansion does. -/
theorem getSubtitles_error_iff (avail : List (String × Track)) (req : List LangPattern)
    (s : String) :
    getSubtitles avail req = Except.error s ↔
      expandRequested (avail.map Prod.fst) req = Except.error s := by
  unfold getSubtitles
  cases hr : expandRequested (avail.map Prod.fst) req with
  | error e => rw [except_bind_error]; simp
  | ok ex => rw [except_bind_ok]; simp

/-- C8: track selection fails with the invalid-selection error if and only
if some requested entry is a malformed regular expression; the error names
an offending pattern, and the failure is surfaced to the caller as an
`Except.error` result rather than recovered. -/
theorem getSubtitles_error_iff_invalid :
    ∀ (avail : List (String × Track)) (req : List LangPattern),
      ((∃ s, getSubtitles avail req = Except.error s) ↔
        ∃ s, LangPattern.invalid s ∈ req) ∧
      (∀ s, getSubtitles avail req = Except.error s → LangPattern.invalid s ∈ req) := by
  intro avail req
  obtain ⟨h1, h2⟩ := expandRequested_error_char req (avail.map Prod.fst)
  constructor
  · constructor
    · rintro ⟨s, hs⟩
      exact h1.mp ⟨s, (getSubtitles_error_iff avail req s).mp hs⟩
    · intro hinv
      obtain ⟨s, hs⟩ := h1.mpr hinv
      exact ⟨s, (getSubtitles_error_iff avail req s).mpr hs⟩
  · intro s hs
    exact h2 s ((getSubtitles_error_iff avail req s).mp hs)

theorem getSubtitles_error_iff_invalid_witness :
    LangPattern.invalid "[" ∈ [LangPattern.invalid "["] :=
  (getSubtitles_error_iff_invalid [] [LangPattern.invalid "["]).2 "[" (by rfl)

/-- Membership in the first-occurrence de-duplication: kept iff present in
the input and not already seen. -/
theorem dedupFirst_mem :
    ∀ (L seen : List String) (x : String), x ∈ dedupFirst seen L ↔ x ∈ L ∧ x ∉ seen := by
  intro L
  induction L with
  | nil => intro seen x; simp [dedupFirst]
  | cons y ys ih =>
    intro seen x
    by_cases hy : y ∈ seen
    · rw [show dedupFirst seen (y :: ys) = dedupFirst seen ys by simp [dedupFirst, hy], ih]
      constructor
      · rintro ⟨h1, h2⟩; exact ⟨List.mem_cons_of_mem _ h1, h2⟩
      · rintro ⟨h1, h2⟩
        rcases List.mem_cons.mp h1 with h3 | h3
        · subst h3; exact absurd hy h2
        · exact ⟨h3, h2⟩
    · rw [show dedupFirst seen (y :: ys) = y :: dedupFirst (y :: seen) ys by
        simp [dedupFirst, hy]]
      constructor
      · intro h
        rcases List.mem_cons.mp h with h3 | h3
        · subst h3; exact ⟨List.mem_cons_self _ _, hy⟩
        · obtain ⟨h4, h5⟩ := (ih (y :: seen) x).mp h3
          exact ⟨List.mem_cons_of_mem _ h4, fun hx => h5 (List.mem_cons_of_mem _ hx)⟩
      · rintro ⟨h1, h2⟩
        rcases List.mem_cons.mp h1 with h3 | h3
        · subst h3; exact List.mem_cons_self _ _
        · by_cases hxy : x = y
          · subst hxy; exact List.mem_cons_self _ _
          · exact List.mem_cons_of_mem _ ((ih (y :: seen) x).mpr ⟨h3, by simp [hxy, h2]⟩)

/-- The first-occurrence de-duplication has no duplicates. -/
theorem dedupFirst_nodup :
    ∀ (L seen : List String), (dedupFirst seen L).Nodup := by
  intro L
  induction L with
  | nil => intro seen; simp [dedupFirst]
  | cons y ys ih =>
    intro seen
    by_cases hy : y ∈ seen
    · rw [show dedupFirst seen (y :: ys) = dedupFirst seen ys by simp [dedupFirst, hy]]
      exact ih seen
    · rw [show dedupFirst seen (y :: ys) = y :: dedupFirst (y :: seen) ys by
        simp [dedupFirst, hy]]
      refine List.nodup_cons.mpr ⟨?_, ih (y :: seen)⟩
      intro hmem
      exact ((dedupFirst_mem ys (y :: seen) y).mp hmem).2 (List.mem_cons_self _ _)

/-- De-duplicating a fresh duplicate-free block keeps it verbatim in
place. -/
theorem dedupFirst_append :
    ∀ (A seen R : List String), A.Nodup → (∀ a ∈ A, a ∉ seen) →
      dedupFirst seen (A ++ R) = A ++ dedupFirst (A.reverse ++ seen) R := by
  intro A
  induction A with
  | nil => intro seen R _ _; simp
  | cons x A2 ih =>
    intro seen R hnd hns
    have hx : x ∉ seen := hns x (List.mem_cons_self _ _)
    obtain ⟨hxa, hnd2⟩ := List.nodup_cons.mp hnd
    have hns2 : ∀ a ∈ A2, a ∉ x :: seen := by
      intro a ha
      rw [List.mem_cons, not_or]
      exact ⟨fun he => hxa (he ▸ ha), hns a (List.mem_cons_of_mem _ ha)⟩
    rw [List.cons_append,
      show dedupFirst seen (x :: (A2 ++ R)) = x :: dedupFirst (x :: seen) (A2 ++ R) by
        simp [dedupFirst, hx],
      ih (x :: seen) R hnd2 hns2]
    simp [List.reverse_cons, List.append_assoc]

/-- A successful lookup exists exactly for the available language codes. -/
theorem lookupLang_isSome :
    ∀ (avail : List (String × Track)) (l : String),
      (lookupLang l avail).isSome = true ↔ l ∈ avail.map Prod.fst := by
  intro avail
  induction avail with
  | nil => intro l; simp [lookupLang]
  | cons p rest ih =>
    obtain ⟨k, t⟩ := p
    intro l
    by_cases hk : k = l
    · subst hk; simp [lookupLang]
    · simp [lookupLang, hk, ih l, Ne.symm hk]

/-- Unavailable language codes look up to nothing. -/
theorem lookupLang_eq_none :
    ∀ (avail : List (String × Track)) (l : String),
      l ∉ avail.map Prod.fst → lookupLang l avail = none := by
  intro avail l h
  cases hl : lookupLang l avail with
  | none => rfl
  | some t => exact absurd ((lookupLang_isSome avail l).mp (by simp [hl])) h

/-- When every track records its own key as language, a looked-up track
carries the looked-up language. -/
theorem lookupLang_lang :
    ∀ (avail : List (String × Track)), (∀ p ∈ avail, p.2.lang = p.1) →
      ∀ (l : String) (t : Track), lookupLang l avail = some t → t.lang = l := by
  intro avail
  induction avail with
  | nil => intro _ l t h; simp [lookupLang] at h
  | cons p rest ih =>
    obtain ⟨k, v⟩ := p
    intro hl l t h
    by_cases hk : k = l
    · subst hk
      rw [show lookupLang k ((k, v) :: rest) = some v by simp [lookupLang],
        Option.some.injEq] at h
      subst h
      exact hl (k, v) (List.mem_cons_self _ _)
    · rw [show lookupLang l ((k, v) :: rest) = lookupLang l rest by simp [lookupLang, hk]] at h
      exact ih (fun q hq => hl q (List.mem_cons_of_mem _ hq)) l t h

theorem filterMap_congr_mem {α β : Type} (f g : α → Option β) :
    ∀ (L : List α), (∀ a ∈ L, f a = g a) → L.filterMap f = L.filterMap g := by
  intro L
  induction L with
  | nil => intro _; rfl
  | cons a L2 ih =>
    intro h
    rw [List.filterMap_cons, List.filterMap_cons, h a (List.mem_cons_self _ _),
      ih (fun b hb => h b (List.mem_cons_of_mem _ hb))]

/-- Looking every key of a duplicate-free association list back up returns
exactly its values, in order. -/
theorem keys_filterMap_lookup :
    ∀ (avail : List (String × Track)), (avail.map Prod.fst).Nodup →
      (avail.map Prod.fst).filterMap (fun l => lookupLang l avail) = avail.map Prod.snd := by
  intro avail
  induction avail with
  | nil => intro _; rfl
  | cons p rest ih =>
    obtain ⟨k, v⟩ := p
    intro hnd
    rw [List.map_cons] at hnd
    obtain ⟨hk, hnd2⟩ := List.nodup_cons.mp hnd
    show List.filterMap (fun l => lookupLang l ((k, v) :: rest)) (k :: rest.map Prod.fst) =
      v :: rest.map Prod.snd
    have hcongr : (rest.map Prod.fst).filterMap (fun l => lookupLang l ((k, v) :: rest)) =
        (rest.map Prod.fst).filterMap (fun l => lookupLang l rest) := by
      apply filterMap_congr_mem
      intro l hl
      have hne : ¬ k = l := fun he => hk (he ▸ hl)
      simp [lookupLang, hne]
    rw [@List.filterMap_cons_some _ _ (fun l => lookupLang l ((k, v) :: rest)) k
      (rest.map Prod.fst) v (by simp [lookupLang]), hcongr, ih hnd2]

/-- The languages of the looked-up tracks are the looked-up codes that are
available. -/
theorem filterMap_lookup_map_lang :
    ∀ (avail : List (String × Track)), (∀ p ∈ avail, p.2.lang = p.1) →
      ∀ (L : List String),
        (L.filterMap (fun l => lookupLang l avail)).map Track.lang =
          L.filter (fun l => (lookupLang l avail).isSome) := by
  intro avail hl L
  induction L with
  | nil => rfl
  | cons x L2 ih =>
    cases hx : lookupLang x avail with
    | none =>
      rw [@List.filterMap_cons_none _ _ (fun l => lookupLang l avail) x L2 hx, List.filter_cons]
      simp [hx, ih]
    | some t =>
      rw [@List.filterMap_cons_some _ _ (fun l => lookupLang l avail) x L2 t hx, List.map_cons,
        lookupLang_lang avail hl x t hx, List.filter_cons]
      simp [hx, ih]

/-- With no malformed entry the expansion succeeds; a wildcard entry puts
every available code into the expansion, and a leading wildcard puts the
whole available enumeration at its front. -/
theorem expandRequested_ok :
    ∀ (req : List LangPattern) (avail : List String),
      (∀ s, LangPattern.invalid s ∉ req) →
      ∃ ex, expandRequested avail req = Except.ok ex ∧
        (LangPattern.wildcard ∈ req → ∀ l ∈ avail, l ∈ ex) ∧
        (∀ ps, req = LangPattern.wildcard :: ps → ∃ r2, ex = avail ++ r2) := by
  intro req
  induction req with
  | nil =>
    intro avail _
    exact ⟨[], rfl, fun h => absurd h (by simp), fun ps h => by cases h⟩
  | cons p ps ih =>
    intro avail hninv
    have hninv2 : ∀ s, LangPattern.invalid s ∉ ps :=
      fun s hs => hninv s (List.mem_cons_of_mem _ hs)
    have hp : ∀ s, p ≠ LangPattern.invalid s :=
      fun s he => hninv s (he ▸ List.mem_cons_self _ _)
    obtain ⟨ex2, hex2, hw2, _⟩ := ih avail hninv2
    refine ⟨expandOne avail p ++ ex2, ?_, ?_, ?_⟩
    · rw [expandRequested_cons_ok avail p ps hp, hex2, except_bind_ok]
    · intro hw l hl
      rcases List.mem_cons.mp hw with h1 | h2
      · rw [← h1]
        exact List.mem_append_left _ hl
      · exact List.mem_append_right _ (hw2 h2 l hl)
    · intro ps2 hps
      obtain ⟨he1, he2⟩ := List.cons_eq_cons.mp hps
      exact ⟨ex2, by rw [he1]; rfl⟩

/-- C5 (corrected, counterexample): with availability enumerated `en, de`
and the policy `["de", "all"]`, the first-occurrence de-duplication keeps
`de` in front: the result is `[de, en]`, each language exactly once, but
not the available set's enumeration order `[en, de]`. -/
theorem getSubtitles_all_order_cex :
    getSubtitles
        [("en", ⟨"en", Source.user, "uEn", "mEn"⟩), ("de", ⟨"de", Source.user, "uDe", "mDe"⟩)]
        [LangPattern.literal "de", LangPattern.wildcard] =
      Except.ok [⟨"de", Source.user, "uDe", "mDe"⟩, ⟨"en", Source.user, "uEn", "mEn"⟩] ∧
    ([⟨"de", Source.user, "uDe", "mDe"⟩, ⟨"en", Source.user, "uEn", "mEn"⟩] : List Track) ≠
      [⟨"en", Source.user, "uEn", "mEn"⟩, ⟨"de", Source.user, "uDe", "mDe"⟩] :=
  ⟨by rfl, by decide⟩

/-- C5 (amended): for every duplicate-free available language map and every
policy containing `"all"` (and no malformed regex), the selection contains
every available language exactly once; the result is the available
enumeration in order when `"all"` is the first requested entry, while an
entry expanded before `"all"` moves ahead of it (see
`getSubtitles_all_order_cex`). -/
theorem getSubtitles_all_exactly_once :
    ∀ (avail : List (String × Track)) (req : List LangPattern),
      (avail.map Prod.fst).Nodup →
      (∀ p ∈ avail, p.2.lang = p.1) →
      (∀ s, LangPattern.invalid s ∉ req) →
      LangPattern.wildcard ∈ req →
      ∃ ts, getSubtitles avail req = Except.ok ts ∧
        (ts.map Track.lang).Nodup ∧
        (∀ l, l ∈ ts.map Track.lang ↔ l ∈ avail.map Prod.fst) ∧
        (∀ ps, req = LangPattern.wildcard :: ps → ts = avail.map Prod.snd) := by
  intro avail req hnd hlang hninv hw
  obtain ⟨ex, hex, hsub, hfirst⟩ := expandRequested_ok req (avail.map Prod.fst) hninv
  refine ⟨(dedupFirst [] ex).filterMap (fun l => lookupLang l avail), ?_, ?_, ?_, ?_⟩
  · unfold getSubtitles
    rw [hex, except_bind_ok]
  · rw [filterMap_lookup_map_lang avail hlang]
    exact (dedupFirst_nodup ex []).filter _
  · intro l
    rw [filterMap_lookup_map_lang avail hlang, List.mem_filter]
    constructor
    · rintro ⟨_, hs⟩
      exact (lookupLang_isSome avail l).mp (by simpa using hs)
    · intro hl
      refine ⟨(dedupFirst_mem ex [] l).mpr ⟨hsub hw l hl, by simp⟩, ?_⟩
      simpa using (lookupLang_isSome avail l).mpr hl
  · intro ps hps
    obtain ⟨r2, hr2⟩ := hfirst ps hps
    subst hr2
    rw [dedupFirst_append (avail.map Prod.fst) [] r2 hnd (by simp),
      List.filterMap_append, keys_filterMap_lookup avail hnd]
    have hnil : (dedupFirst ((avail.map Prod.fst).reverse ++ []) r2).filterMap
        (fun l => lookupLang l avail) = [] := by
      rw [List.filterMap_eq_nil_iff]
      intro l hl
      have hm := (dedupFirst_mem r2 ((avail.map Prod.fst).reverse ++ []) l).mp hl
      refine lookupLang_eq_none avail l (fun hk => hm.2 ?_)
      exact List.mem_append_left _ (List.mem_reverse.mpr hk)
    rw [hnil, List.append_nil]

theorem getSubtitles_all_exactly_once_witness :
    getSubtitles [("en", ⟨"en", Source.user, "uEn", "mEn"⟩)] [LangPattern.wildcard] =
      Except.ok [⟨"en", Source.user, "uEn", "mEn"⟩] := by
  obtain ⟨ts, hok, -, -, hfirst⟩ :=
    getSubtitles_all_exactly_once [("en", ⟨"en", Source.user, "uEn", "mEn"⟩)]
      [LangPattern.wildcard] (by decide) (by decide)
      (by intro s h; simp at h) (List.mem_singleton.mpr rfl)
  rw [hfirst [] rfl] at hok
  exact hok

/-- The removal loop never adds files. -/
theorem removeFiles_subset :
    ∀ (ps fs : List String), removeFiles fs ps ⊆ fs := by
  intro ps
  induction ps with
  | nil => intro fs; exact fun a ha => ha
  | cons p qs ih =>
    intro fs
    by_cases hp : p ∈ fs
    · rw [show removeFiles fs (p :: qs) = removeFiles (fs.erase p) qs by
        simp [removeFiles, osRemove, hp]]
      exact fun a ha => List.erase_subset _ _ (ih (fs.erase p) ha)
    · rw [show removeFiles fs (p :: qs) = removeFiles fs qs by
        simp [removeFiles, osRemove, hp]]
      exact ih fs

/-- On a duplicate-free filesystem, every file named in the removal list is
gone afterwards. -/
theorem removeFiles_not_mem :
    ∀ (ps fs : List String), fs.Nodup → ∀ p ∈ ps, p ∉ removeFiles fs ps := by
  intro ps
  induction ps with
  | nil => intro fs _ p hp; cases hp
  | cons q qs ih =>
    intro fs hnd p hp
    by_cases hq : q ∈ fs
    · rw [show removeFiles fs (q :: qs) = removeFiles (fs.erase q) qs by
        simp [removeFiles, osRemove, hq]]
      rcases List.mem_cons.mp hp with h1 | h2
      · subst h1
        intro hmem
        exact ((List.Nodup.mem_erase_iff hnd).mp (removeFiles_subset qs (fs.erase p) hmem)).1 rfl
      · exact ih (fs.erase q) (List.Nodup.erase q hnd) p h2
    · rw [show removeFiles fs (q :: qs) = removeFiles fs qs by
        simp [removeFiles, osRemove, hq]]
      rcases List.mem_cons.mp hp with h1 | h2
      · subst h1
        exact fun hmem => hq (removeFiles_subset qs fs hmem)
      · exact ih fs hnd p h2

/-- Removing files none of which exist leaves the filesystem unchanged
(every `FileNotFoundError` is caught). -/
theorem removeFiles_id :
    ∀ (ps fs : List String), (∀ p ∈ ps, p ∉ fs) → removeFiles fs ps = fs := by
  intro ps
  induction ps with
  | nil => intro fs _; rfl
  | cons q qs ih =>
    intro fs h
    rw [show removeFiles fs (q :: qs) = removeFiles fs qs by
      simp [removeFiles, osRemove, h q (List.mem_cons_self _ _)]]
    exact ih fs (fun p hp => h p (List.mem_cons_of_mem _ hp))

/-- C9 (corrected, counterexample): a delete invocation with no passed
subtitles and no recorded subtitles returns early: no file is touched and
no term-based delete query is issued against the index, so not every
invocation purges the index. -/
theorem delete_no_query_on_empty :
    deleteSubtitles "v" "media" [] [] ["media/x.en.vtt"] = (["media/x.en.vtt"], none) ∧
    (none : Option DeleteQuery) ≠
      some ⟨"ta_subtitle/_delete_by_query?refresh=true", "youtube_id", "v"⟩ :=
  ⟨by rfl, by simp⟩

/-- C9 (amended): whenever some subtitle files are passed or recorded,
`delete` purges the index via a term-based `_delete_by_query` on the video
id (with a refresh directive) and removes the files, tolerating files that
are already missing; a second delete call on the already-cleaned
filesystem removes nothing, raises nothing and issues the same term query.
With neither passed nor recorded files, `delete` returns early without
touching the index (see `delete_no_query_on_empty`). -/
theorem delete_term_query_tolerant :
    ∀ (youtubeId mediaBase : String) (args js : List Track) (fs : List String),
      fs.Nodup → (args ≠ [] ∨ js ≠ []) →
      ∃ fs1,
        deleteSubtitles youtubeId mediaBase args js fs =
          (fs1, some ⟨"ta_subtitle/_delete_by_query?refresh=true", "youtube_id", youtubeId⟩) ∧
        deleteSubtitles youtubeId mediaBase args js fs1 =
          (fs1, some ⟨"ta_subtitle/_delete_by_query?refresh=true", "youtube_id", youtubeId⟩) := by
  intro youtubeId mediaBase args js fs hnd hne
  by_cases ha : args = []
  · subst ha
    have hjs : js ≠ [] := by
      rcases hne with h | h
      · exact absurd rfl h
      · exact h
    have heq : ∀ fs2 : List String, deleteSubtitles youtubeId mediaBase [] js fs2 =
        (removeFiles fs2 ((js.map Track.mediaUrl).map (fun p => mediaBase ++ "/" ++ p)),
         some ⟨"ta_subtitle/_delete_by_query?refresh=true", "youtube_id", youtubeId⟩) := by
      intro fs2
      simp [deleteSubtitles, hjs]
    refine ⟨removeFiles fs ((js.map Track.mediaUrl).map (fun p => mediaBase ++ "/" ++ p)),
      heq fs, ?_⟩
    rw [heq, removeFiles_id _ _ (fun p hp => removeFiles_not_mem _ fs hnd p hp)]
  · have heq : ∀ fs2 : List String, deleteSubtitles youtubeId mediaBase args js fs2 =
        (removeFiles fs2 ((args.map Track.mediaUrl).map (fun p => mediaBase ++ "/" ++ p)),
         some ⟨"ta_subtitle/_delete_by_query?refresh=true", "youtube_id", youtubeId⟩) := by
      intro fs2
      simp [deleteSubtitles, ha]
    refine ⟨removeFiles fs ((args.map Track.mediaUrl).map (fun p => mediaBase ++ "/" ++ p)),
      heq fs, ?_⟩
    rw [heq, removeFiles_id _ _ (fun p hp => removeFiles_not_mem _ fs hnd p hp)]

theorem delete_term_query_tolerant_witness :
    deleteSubtitles "v" "media" [] [⟨"en", Source.user, "u", "x.en.vtt"⟩] [] =
      ([], some ⟨"ta_subtitle/_delete_by_query?refresh=true", "youtube_id", "v"⟩) := by
  obtain ⟨fs1, h1, h2⟩ := delete_term_query_tolerant "v" "media" []
    [⟨"en", Source.user, "u", "x.en.vtt"⟩] [] List.nodup_nil (Or.inr (by simp))
  have h0 : (deleteSubtitles "v" "media" [] [⟨"en", Source.user, "u", "x.en.vtt"⟩] []).1 =
      fs1 := by rw [h1]
  have hfs : fs1 = [] := h0.symm.trans rfl
  rw [hfs] at h1
  exact h1

end TubeArchivist
